import Mathlib

/-!
# devdetox: a verification development for `main.go`

The program walks a directory tree, records stale `node_modules` / `.venv` /
`.env` directories, measures them with `du -sh`, ranks them by size and lets
the operator choose which ones to delete.

Conventions of the embedding:

* a Go `string` that is inspected character by character is a `List Char`
  (a sequence of Unicode scalar values); a Go `string` that is only stored
  and compared (a path, a file name) is a `String`;
* a Go `int` / `int64` is an `Int`; where the source can overflow the result is
  reduced with `wrap64`;
* a `float64` magnitude is taken as an exact rational (`ℚ`);
* effects and library behaviour outside the source (the recursive delete, the
  `du` process, `fmt.Sscanf`, the Unicode case tables of the Go standard
  library, the platform's out-of-range float conversion) are explicit
  arguments.
-/

namespace DevDetox

/-! ## Records -/

/-- The Go struct `DirInfo`.  `ModTime` is an instant on a linear time line. -/
structure DirInfo where
  Path : String
  Size : String
  ModTime : Int
  Bytes : Int
  deriving DecidableEq, Repr

/-! ## Machine integers -/

/-- Largest `int64`. -/
def maxInt64 : Int := 2 ^ 63 - 1

/-- Smallest `int64`. -/
def minInt64 : Int := -(2 ^ 63)

/-- Two's-complement reduction of an integer to the `int64` range. -/
def wrap64 (x : Int) : Int := (x + 2 ^ 63) % 2 ^ 64 - 2 ^ 63

/-! ## Standard-library string functions used by `main.go` -/

/-- Go's `unicode.IsSpace`: the Unicode White_Space code points. -/
def isSpace (c : Char) : Bool :=
  let n := c.toNat
  (0x09 ≤ n && n ≤ 0x0D) || n = 0x20 || n = 0x85 || n = 0xA0 || n = 0x1680 ||
  (0x2000 ≤ n && n ≤ 0x200A) || n = 0x2028 || n = 0x2029 || n = 0x202F ||
  n = 0x205F || n = 0x3000

/-- Go's `strings.TrimSpace`: drops leading and trailing white space. -/
def TrimSpace (s : List Char) : List Char :=
  ((s.dropWhile isSpace).reverse.dropWhile isSpace).reverse

/-- Go's `unicode.ToLower` on one rune.  The ASCII part is the standard
library's own code (`A..Z` shifted by 32, every other ASCII rune unchanged);
the case table for runes above ASCII is the argument `tbl`. -/
def lowerRune (tbl : Char → Char) (c : Char) : Char :=
  if c.toNat < 128 then
    if 65 ≤ c.toNat ∧ c.toNat ≤ 90 then Char.ofNat (c.toNat + 32) else c
  else tbl c

/-- Go's `strings.ToLower`: `unicode.ToLower` applied to every rune. -/
def ToLower (tbl : Char → Char) (s : List Char) : List Char :=
  s.map (lowerRune tbl)

/-- Go's `unicode.ToUpper` on one rune, the table above ASCII being `tbl`. -/
def upperRune (tbl : Char → Char) (c : Char) : Char :=
  if c.toNat < 128 then
    if 97 ≤ c.toNat ∧ c.toNat ≤ 122 then Char.ofNat (c.toNat - 32) else c
  else tbl c

/-- Go's `strings.ToUpper`. -/
def ToUpper (tbl : Char → Char) (s : List Char) : List Char :=
  s.map (upperRune tbl)

/-- Go's `strings.Split(s, sep)` for a one-character separator: the pieces of
`s` between the separators, `[""]` for the empty string. -/
def Split (sep : Char) : List Char → List (List Char)
  | [] => [[]]
  | c :: cs =>
    if c = sep then [] :: Split sep cs
    else
      match Split sep cs with
      | [] => [[c]]
      | p :: ps => (c :: p) :: ps

/-- Go's `strings.Contains(s, sep)` for a one-character `sep`. -/
def Contains (sep : Char) (s : List Char) : Bool := s.contains sep

/-- Go's `strings.TrimSuffix(s, suffix)`. -/
def TrimSuffix (s suffix : List Char) : List Char :=
  if suffix.isSuffixOf s then s.take (s.length - suffix.length) else s

/-- The test `'0' <= c && c <= '9'`. -/
def isDecDigit (c : Char) : Bool := 48 ≤ c.toNat && c.toNat ≤ 57

/-- The digit loop of `strconv.ParseUint(s, 10, 64)`.  `acc` is the value read
so far.  A character that is not a decimal digit is a syntax error
(`.error false`); a value above `2^64-1` stops the loop at once with the range
error (`.error true`), before the remaining characters are looked at. -/
def parseUintLoop : List Char → Nat → Except Bool Nat
  | [], acc => .ok acc
  | c :: cs, acc =>
    if isDecDigit c then
      let acc1 := acc * 10 + (c.toNat - 48)
      if acc1 ≥ 2 ^ 64 then .error true else parseUintLoop cs acc1
    else .error false

/-- The part of `strconv.ParseInt(s, 10, 0)` after the sign has been removed:
`neg` tells whether the sign was `-` and `body` is the rest.  The result is the
pair (value, error is nil): 0 on a syntax error, the nearest `int64` bound on
overflow. -/
def parseIntBody (neg : Bool) (body : List Char) : Int × Bool :=
  if body = [] then (0, false)
  else
    match parseUintLoop body 0 with
    | .error false => (0, false)
    | .error true => (if neg then minInt64 else maxInt64, false)
    | .ok un =>
      if !neg && decide (un ≥ 2 ^ 63) then (maxInt64, false)
      else if neg && decide (un > 2 ^ 63) then (minInt64, false)
      else (if neg then -(un : Int) else (un : Int), true)

/-- Go's `strconv.Atoi` for a 64-bit `int`, as the pair (value, error is nil):
an optional sign `+` or `-`, then at least one decimal digit.  (The library's
fast path for short strings returns the same pairs as `ParseInt(s, 10, 0)`.) -/
def Atoi (s : List Char) : Int × Bool :=
  match s with
  | '-' :: body => parseIntBody true body
  | '+' :: body => parseIntBody false body
  | _ => parseIntBody false s

/-! ## The selection parser (`main`, lines 90-118) -/

/-- The loop `for i := first; i < end; i++ { if i >= 0 && i < len(dirs) { append i } }`
of the range branch, run for at most `fuel` iterations; `i++` is `int`
arithmetic. -/
def rangeLoop (n : Nat) (stop : Int) : Nat → Int → List Int
  | 0, _ => []
  | fuel + 1, i =>
    if i < stop then
      if 0 ≤ i ∧ i < (n : Int) then i :: rangeLoop n stop fuel (wrap64 (i + 1))
      else rangeLoop n stop fuel (wrap64 (i + 1))
    else []

/-- The body of `for _, r := range ranges` for one token `r`: the indices the
token appends to `toDelete`, `n` being `len(dirs)`.  The errors of the two
`Atoi` calls of the range branch are discarded, as in the source.  The loop
is given `end - first` iterations, which is all it can make (`rangeLoop_fuel`). -/
def tokenIndices (n : Nat) (r : List Char) : List Int :=
  if Contains '-' r then
    match Split '-' r with
    | [p0, p1] =>
      let start := (Atoi (TrimSpace p0)).1
      let stop := (Atoi (TrimSpace p1)).1
      let first := wrap64 (start - 1)
      rangeLoop n stop (stop - first).toNat first
    | _ => []
  else
    let num := Atoi (TrimSpace r)
    if num.2 ∧ num.1 > 0 ∧ num.1 ≤ (n : Int) then [wrap64 (num.1 - 1)] else []

/-- The selection parser on the already trimmed and lower-cased line:
`toDelete` as built by lines 92-118 for `len(dirs) = n`. -/
def parseSelection (numStr : List Char) (n : Nat) : List Int :=
  if numStr = "all".toList then (List.range n).map Int.ofNat
  else (Split ',' numStr).foldl (fun toDelete r => toDelete ++ tokenIndices n r) []

/-- What the program does with a line read from the console:
`strings.TrimSpace(strings.ToLower(line))`. -/
def normalize (tbl : Char → Char) (line : List Char) : List Char :=
  TrimSpace (ToLower tbl line)

/-- The selection parser on the raw line typed by the operator. -/
def parseSelectionLine (tbl : Char → Char) (line : List Char) (n : Nat) : List Int :=
  parseSelection (normalize tbl line) n

/-! ## The confirmation and deletion sequence (`main`, lines 81-141) -/

/-- The Go index expression `dirs[i]`; `none` is the run-time panic
"index out of range". -/
def lookupDir (dirs : List DirInfo) (i : Int) : Option DirInfo :=
  if 0 ≤ i then dirs.get? i.toNat else none

/-- The preview loop (lines 122-124): the (path, size) pairs printed, or
`none` if an index expression panics. -/
def previewLoop (dirs : List DirInfo) : List Int → Option (List (String × String))
  | [] => some []
  | i :: rest =>
    match lookupDir dirs i with
    | none => none
    | some d =>
      match previewLoop dirs rest with
      | none => none
      | some out => some ((d.Path, d.Size) :: out)

/-- The deletion loop (lines 130-136).  `removeAll` is `os.RemoveAll` on a file
system state of type `σ`; its Boolean is "err != nil", which is only printed.
The result is the final file system and the paths handed to `removeAll`, in
order; `none` if an index expression panics. -/
def deleteLoop {σ : Type} (removeAll : String → σ → σ × Bool) (dirs : List DirInfo) :
    List Int → σ → Option (σ × List String)
  | [], fs => some (fs, [])
  | i :: rest, fs =>
    match lookupDir dirs i with
    | none => none
    | some d =>
      match deleteLoop removeAll dirs rest (removeAll d.Path fs).1 with
      | none => none
      | some (fs1, attempts) => some (fs1, d.Path :: attempts)

/-- Lines 81-141 of `main`: the three console reads (`response`, `numStr`,
`confirm`, each as the raw line) and the deletions they lead to, starting from
the ranked list `dirs` and the file system `fs`.  The result is the final file
system and the sequence of deletion attempts. -/
def mainPrompts {σ : Type} (tbl : Char → Char) (removeAll : String → σ → σ × Bool)
    (dirs : List DirInfo) (response numStr confirm : List Char) (fs : σ) :
    Option (σ × List String) :=
  if dirs.length > 0 then
    if normalize tbl response = "y".toList then
      let toDelete := parseSelection (normalize tbl numStr) dirs.length
      if toDelete.length > 0 then
        match previewLoop dirs toDelete with
        | none => none
        | some _ =>
          if normalize tbl confirm = "y".toList then deleteLoop removeAll dirs toDelete fs
          else some (fs, [])
      else some (fs, [])
    else some (fs, [])
  else some (fs, [])

/-! ## `findOldDirs` -/

/-- A node of the directory tree as `filepath.Walk` sees it through `Lstat`:
a directory with its entries in the order `Walk` reads them, or anything else
(regular file, symbolic link, ...).  `name` is `info.Name()`. -/
inductive FsNode where
  | file (name : String) (modTime : Int)
  | dir (name : String) (modTime : Int) (children : List FsNode)

/-- The value of `info.Name()`. -/
def FsNode.name : FsNode → String
  | .file n _ => n
  | .dir n _ _ => n

/-- The value of `info.IsDir()`. -/
def FsNode.isDir : FsNode → Bool
  | .file _ _ => false
  | .dir _ _ _ => true

/-- The value of `info.ModTime()`. -/
def FsNode.modTime : FsNode → Int
  | .file _ m => m
  | .dir _ m _ => m

mutual
/-- Go's `filepath.Walk` below one node, for a tree whose nodes can all be
read: the callback `fn path isDir name modTime` runs on the state `s` and
returns the new state and whether it returned `filepath.SkipDir` (it returns
`nil` otherwise).  The result is the state after the walk and whether
`SkipDir` is returned to the caller. -/
def walk {σ : Type} (join : String → String → String)
    (fn : String → Bool → String → Int → σ → σ × Bool) (path : String) :
    FsNode → σ → σ × Bool
  | .file name mt, s => fn path false name mt s
  | .dir name mt children, s =>
    if (fn path true name mt s).2 then ((fn path true name mt s).1, true)
    else walkEntries join fn path children (fn path true name mt s).1
/-- The loop of `walk` over the entries of a directory: `SkipDir` coming back
from a directory entry is absorbed, from any other entry it ends the loop. -/
def walkEntries {σ : Type} (join : String → String → String)
    (fn : String → Bool → String → Int → σ → σ × Bool) (path : String) :
    List FsNode → σ → σ × Bool
  | [], s => (s, false)
  | c :: cs, s =>
    if (walk join fn (join path c.name) c s).2 && !c.isDir then
      ((walk join fn (join path c.name) c s).1, true)
    else walkEntries join fn path cs (walk join fn (join path c.name) c s).1
end

/-- The target-name test of `findOldDirs` (lines 153-155). -/
def isTarget (name : String) : Bool :=
  name = "node_modules" || name = ".venv" || name = ".env"

/-- The closure passed to `filepath.Walk` in `findOldDirs`, with `dirs` as its
state; the error argument is always `nil` in a tree without node errors. -/
def findOldDirsFn (cutoffDate : Int) (path : String) (isDir : Bool) (name : String)
    (modTime : Int) (dirs : List DirInfo) : List DirInfo × Bool :=
  if isDir && isTarget name then
    if modTime > cutoffDate then (dirs, true)
    else (dirs ++ [{ Path := path, Size := "", ModTime := modTime, Bytes := 0 }], true)
  else (dirs, false)

/-- The function `findOldDirs`, for the tree `root` found at `startPath`.
`cutoffDate` is the value of `time.Now().AddDate(0, 0, -days)` and `join` is
`filepath.Join`. -/
def findOldDirs (join : String → String → String) (cutoffDate : Int)
    (startPath : String) (root : FsNode) : List DirInfo :=
  (walk join (findOldDirsFn cutoffDate) startPath root []).1

/-! ### The scanner as the specification describes it -/

/-- A directory of the tree with the names of its proper ancestors inside the
walk (nearest first). -/
structure DirEntry where
  path : String
  name : String
  modTime : Int
  ancestors : List String

mutual
/-- Every directory below and including a node, in the order of a complete
depth-first traversal (nothing is pruned). -/
def allDirs (join : String → String → String) (path : String) (anc : List String) :
    FsNode → List DirEntry
  | .file _ _ => []
  | .dir name mt children =>
    { path := path, name := name, modTime := mt, ancestors := anc } ::
      allDirsList join path (name :: anc) children
/-- The directories of a list of sibling entries. -/
def allDirsList (join : String → String → String) (path : String) (anc : List String) :
    List FsNode → List DirEntry
  | [] => []
  | c :: cs => allDirs join (join path c.name) anc c ++ allDirsList join path anc cs
end

/-- The fixed target-name set of the specification. -/
def targetNames : List String := ["node_modules", ".venv", ".env"]

/-- The specification's condition for a directory to be recorded: its name is
`node_modules`, `.venv` or `.env`, its modification time is at or before the
cutoff, and none of its proper ancestors inside the walk has one of these
three names. -/
def shouldRecord (cutoffDate : Int) (e : DirEntry) : Bool :=
  decide (e.name ∈ targetNames) && decide (e.modTime ≤ cutoffDate) &&
    e.ancestors.all (fun a => decide (a ∉ targetNames))

/-- The record the scanner creates for a directory: path and modification
time, the size fields still at their zero values. -/
def DirEntry.toRecord (e : DirEntry) : DirInfo :=
  { Path := e.path, Size := "", ModTime := e.modTime, Bytes := 0 }

/-- The scanner's result as the specification states it. -/
def expectedRecords (join : String → String → String) (cutoffDate : Int)
    (startPath : String) (root : FsNode) : List DirInfo :=
  ((allDirs join startPath [] root).filter (shouldRecord cutoffDate)).map DirEntry.toRecord

/-! ## `convertToBytes`, `parseSize`, `calculateSizes` -/

/-- The map literal `multiplier` of `convertToBytes`. -/
def multiplier : List (List Char × Int) :=
  [("B".toList, 1), ("K".toList, 1024), ("M".toList, 1024 * 1024),
   ("G".toList, 1024 * 1024 * 1024), ("T".toList, 1024 * 1024 * 1024 * 1024)]

/-- A rational with its fraction discarded (rounding towards zero). -/
def truncate (x : ℚ) : Int := if 0 ≤ x then ⌊x⌋ else ⌈x⌉

/-- The Go conversion `int64(x)` of a floating-point value, on the exact
value: the fraction is discarded (truncation towards zero).  When the
truncated value is outside the `int64` range Go leaves the result to the
platform; it is some `int64`, here `ovf x` reduced to the `int64` range. -/
def truncInt64 (ovf : ℚ → Int) (x : ℚ) : Int :=
  if minInt64 ≤ truncate x ∧ truncate x ≤ maxInt64 then truncate x else wrap64 (ovf x)

/-- The function `convertToBytes`; `tbl` is the upper-case table of
`strings.ToUpper` above ASCII and `ovf` the platform's out-of-range
conversion. -/
def convertToBytes (ovf : ℚ → Int) (tbl : Char → Char) (size : ℚ) (unit : List Char) : Int :=
  match multiplier.lookup (TrimSuffix (ToUpper tbl unit) "B".toList) with
  | some mult => truncInt64 ovf (size * (mult : ℚ))
  | none => 0

/-- The function `parseSize`: `size` and `unit` are declared with their zero
values and `fmt.Sscanf(sizeStr, "%f%s", &size, &unit)` stores what it scans,
stopping at the first verb that fails.  The argument `sscanf` tells what was
scanned: nothing (`none`), the magnitude only, or the magnitude and the unit. -/
def parseSize (sscanf : List Char → Option (ℚ × Option (List Char))) (sizeStr : List Char) :
    ℚ × List Char :=
  match sscanf sizeStr with
  | none => (0, [])
  | some (size, none) => (size, [])
  | some (size, some unit) => (size, unit)

/-- The loop of `strings.Fields`; `cur` is the field being read, reversed. -/
def fieldsLoop : List Char → List Char → List (List Char)
  | [], cur => if cur = [] then [] else [cur.reverse]
  | c :: cs, cur =>
    if isSpace c then
      if cur = [] then fieldsLoop cs [] else cur.reverse :: fieldsLoop cs []
    else fieldsLoop cs (c :: cur)

/-- Go's `strings.Fields`: the maximal runs of characters that are not white
space. -/
def Fields (s : List Char) : List (List Char) := fieldsLoop s []

/-- The outcome of running `du -sh <path>`: `cmd.Output()` returns an error,
or the text written to standard output. -/
inductive DuOutcome where
  | failed
  | output (text : List Char)

/-- The body of the loop of `calculateSizes` for one record. -/
def sizeOne (ovf : ℚ → Int) (tbl : Char → Char)
    (sscanf : List Char → Option (ℚ × Option (List Char)))
    (out : DuOutcome) (dir : DirInfo) : DirInfo :=
  match out with
  | .failed => { dir with Size := "error" }
  | .output text =>
    match Fields text with
    | part0 :: _ =>
      { dir with
        Size := String.mk part0
        Bytes := convertToBytes ovf tbl (parseSize sscanf part0).1 (parseSize sscanf part0).2 }
    | [] => dir

/-- The loop of `calculateSizes` from position `i` on; `du i path` is the
outcome of the `i`-th invocation of `du`. -/
def calculateSizesFrom (ovf : ℚ → Int) (tbl : Char → Char)
    (sscanf : List Char → Option (ℚ × Option (List Char)))
    (du : Nat → String → DuOutcome) : Nat → List DirInfo → List DirInfo
  | _, [] => []
  | i, dir :: rest =>
    sizeOne ovf tbl sscanf (du i dir.Path) dir :: calculateSizesFrom ovf tbl sscanf du (i + 1) rest

/-- The function `calculateSizes`. -/
def calculateSizes (ovf : ℚ → Int) (tbl : Char → Char)
    (sscanf : List Char → Option (ℚ × Option (List Char)))
    (du : Nat → String → DuOutcome) (dirs : List DirInfo) : List DirInfo :=
  calculateSizesFrom ovf tbl sscanf du 0 dirs

/-! ## Ranking (`main`, lines 45-48) -/

/-- The closure passed to `sort.Slice`: `dirs[i].Bytes > dirs[j].Bytes`. -/
def lessBytes (a b : DirInfo) : Bool := decide (a.Bytes > b.Bytes)

/-- The ranking step: `sort.Slice(dirs, less)` with the closure above.  The
library sort is the argument `sortSlice`. -/
def rank (sortSlice : (DirInfo → DirInfo → Bool) → List DirInfo → List DirInfo)
    (dirs : List DirInfo) : List DirInfo :=
  sortSlice lessBytes dirs

/-- The requirement `sort.Slice` puts on `less`: a strict weak ordering. -/
def LessOK (less : DirInfo → DirInfo → Bool) : Prop :=
  (∀ a, less a a = false) ∧
  (∀ a b c, less a b = true → less b c = true → less a c = true) ∧
  (∀ a b c, less a b = false → less b c = false → less a c = false)

/-- The contract of `sort.Slice`: for a `less` that meets the requirement the
result is a rearrangement of the slice in which no element is `less` than an
element before it.  The order of equal elements is left open. -/
def IsSortSlice (sortSlice : (DirInfo → DirInfo → Bool) → List DirInfo → List DirInfo) :
    Prop :=
  ∀ less, LessOK less → ∀ xs,
    (sortSlice less xs).Perm xs ∧ (sortSlice less xs).Pairwise (fun a b => less b a = false)

/-- An insertion sort, one function that meets the contract of `sort.Slice`. -/
def insertionSortSlice (less : DirInfo → DirInfo → Bool) (xs : List DirInfo) : List DirInfo :=
  xs.insertionSort (fun a b => less b a = false)

/-! ## Decimal numerals (the tokens the operator types) -/

/-- The decimal numeral of a natural number, as the operator types it. -/
def decimal (k : Nat) : List Char := Nat.toDigits 10 k

/-- One step of reading a decimal numeral from the left. -/
def digitStep (acc : Nat) (c : Char) : Nat := acc * 10 + (c.toNat - 48)

/-- The value of a string of decimal digits read from the left, starting
from `acc`. -/
def decValue (acc : Nat) (ds : List Char) : Nat := ds.foldl digitStep acc

/-- A character of a well-formed token: a decimal digit or the dash. -/
def isTokenChar (c : Char) : Bool := isDecDigit c || c = '-'

/-- A small tree for the worked scenario of the specification: `/r/a` holds a
stale `node_modules` (with a nested one) and a fresh `.venv` (with a stale
`.env` inside) and a file called `.env`; `/r/b` holds a stale `node_modules`.
Times are days relative to now. -/
def exampleTree : FsNode :=
  .dir "r" 0 [
    .dir "a" 0 [
      .dir "node_modules" (-60) [.dir "x" (-60) [.dir "node_modules" (-70) []]],
      .dir ".venv" (-5) [.dir ".env" (-100) []],
      .file ".env" (-100)],
    .dir "b" 0 [.dir "node_modules" (-40) []]]

/-- A plain path join for the examples. -/
def exampleJoin (dir name : String) : String := dir ++ "/" ++ name

/-- A file system for the examples: the list of paths that exist; removing a
path erases it and reports an error when it was not there. -/
def exampleRemoveAll (path : String) (fs : List String) : List String × Bool :=
  (fs.erase path, !fs.contains path)

/-! ## Lemmas on the string functions -/

theorem isSpace_of_isDecDigit {c : Char} (h : isDecDigit c = true) : isSpace c = false := by
  simp only [isDecDigit, Bool.and_eq_true, decide_eq_true_eq] at h
  simp only [isSpace, Bool.or_eq_false_iff, Bool.and_eq_false_iff, decide_eq_false_iff_not]
  omega

theorem foldl_append_tokens {α β : Type} (f : α → List β) (l : List α) (init : List β) :
    l.foldl (fun acc r => acc ++ f r) init = init ++ (l.map f).flatten := by
  induction l generalizing init with
  | nil => simp
  | cons a l ih => simp [ih]

theorem mem_rangeLoop {n : Nat} {stop : Int} {fuel : Nat} {i j : Int}
    (h : j ∈ rangeLoop n stop fuel i) : 0 ≤ j ∧ j < (n : Int) := by
  induction fuel generalizing i with
  | zero => simp [rangeLoop] at h
  | succ fuel ih =>
    simp only [rangeLoop] at h
    split at h
    · split at h
      · rcases List.mem_cons.1 h with rfl | h
        · assumption
        · exact ih h
      · exact ih h
    · simp at h

theorem parseIntBody_range (neg : Bool) (body : List Char) :
    minInt64 ≤ (parseIntBody neg body).1 ∧ (parseIntBody neg body).1 ≤ maxInt64 := by
  unfold parseIntBody
  simp only [minInt64, maxInt64]
  split
  · simp
  · split
    · simp
    · cases neg <;> simp
    · rename_i un _
      cases neg <;> simp only [Bool.not_false, Bool.not_true, Bool.true_and, Bool.false_and,
        decide_eq_true_eq, Bool.false_eq_true, if_false, if_true]
      · split
        · simp
        · constructor <;> omega
      · split
        · simp
        · constructor <;> omega

theorem Atoi_range (s : List Char) : minInt64 ≤ (Atoi s).1 ∧ (Atoi s).1 ≤ maxInt64 := by
  unfold Atoi
  split <;> exact parseIntBody_range _ _

theorem wrap64_eq {x : Int} (h1 : minInt64 ≤ x) (h2 : x ≤ maxInt64) : wrap64 x = x := by
  simp only [minInt64, maxInt64] at h1 h2
  simp only [wrap64]
  omega

theorem mem_tokenIndices {n : Nat} {r : List Char} {j : Int} (h : j ∈ tokenIndices n r) :
    0 ≤ j ∧ j < (n : Int) := by
  unfold tokenIndices at h
  split at h
  · split at h
    · exact mem_rangeLoop h
    · simp at h
  · simp only at h
    split at h
    · rename_i hc
      obtain ⟨_, hpos, hle⟩ := hc
      have hr := Atoi_range (TrimSpace r)
      simp only [List.mem_singleton] at h
      rw [wrap64_eq (by simp only [minInt64] at *; omega) (by omega)] at h
      omega
    · simp at h

theorem mem_parseSelection {numStr : List Char} {n : Nat} {j : Int}
    (h : j ∈ parseSelection numStr n) : 0 ≤ j ∧ j < (n : Int) := by
  unfold parseSelection at h
  split at h
  · simp only [List.mem_map, List.mem_range] at h
    obtain ⟨a, ha, rfl⟩ := h
    simp only [Int.ofNat_eq_coe]
    omega
  · rw [foldl_append_tokens] at h
    simp only [List.nil_append, List.mem_flatten, List.mem_map] at h
    obtain ⟨l, ⟨r, _, rfl⟩, hj⟩ := h
    exact mem_tokenIndices hj

theorem lookupDir_isSome {dirs : List DirInfo} {i : Int} (h0 : 0 ≤ i)
    (h1 : i < (dirs.length : Int)) : ∃ d, lookupDir dirs i = some d := by
  have hlt : i.toNat < dirs.length := by omega
  refine ⟨dirs.get ⟨i.toNat, hlt⟩, ?_⟩
  simp [lookupDir, h0, List.get?_eq_get hlt]

theorem previewLoop_isSome (dirs : List DirInfo) (l : List Int)
    (h : ∀ i ∈ l, 0 ≤ i ∧ i < (dirs.length : Int)) : ∃ out, previewLoop dirs l = some out := by
  induction l with
  | nil => exact ⟨[], rfl⟩
  | cons i rest ih =>
    obtain ⟨d, hd⟩ := lookupDir_isSome (h i (by simp)).1 (h i (by simp)).2
    obtain ⟨out, ho⟩ := ih (fun j hj => h j (by simp [hj]))
    exact ⟨(d.Path, d.Size) :: out, by simp [previewLoop, hd, ho]⟩

theorem deleteLoop_isSome {σ : Type} (removeAll : String → σ → σ × Bool)
    (dirs : List DirInfo) (l : List Int)
    (h : ∀ i ∈ l, 0 ≤ i ∧ i < (dirs.length : Int)) (fs : σ) :
    ∃ out, deleteLoop removeAll dirs l fs = some out := by
  induction l generalizing fs with
  | nil => exact ⟨(fs, []), rfl⟩
  | cons i rest ih =>
    obtain ⟨d, hd⟩ := lookupDir_isSome (h i (by simp)).1 (h i (by simp)).2
    obtain ⟨out, ho⟩ := ih (fun j hj => h j (by simp [hj])) (removeAll d.Path fs).1
    exact ⟨(out.1, d.Path :: out.2), by simp [deleteLoop, hd, ho]⟩

/-! ## C8: the selection parser only yields valid indices -/

/-- C8: for every list length, every case table and every line the operator
types, each index the selection parser yields is at least 0 and below the
list length; hence for every list `dirs` the index expressions `dirs[i]` of
the preview loop and of the deletion loop never go out of range (neither loop
ends in the out-of-range panic). -/
theorem selection_indices_valid (tbl : Char → Char) (line : List Char) :
    (∀ (n : Nat) (i : Int), i ∈ parseSelectionLine tbl line n → 0 ≤ i ∧ i < (n : Int)) ∧
    (∀ dirs : List DirInfo,
      (∀ i ∈ parseSelectionLine tbl line dirs.length, ∃ d, lookupDir dirs i = some d) ∧
      (∃ out, previewLoop dirs (parseSelectionLine tbl line dirs.length) = some out) ∧
      (∀ (σ : Type) (removeAll : String → σ → σ × Bool) (fs : σ),
        ∃ out, deleteLoop removeAll dirs (parseSelectionLine tbl line dirs.length) fs
          = some out)) := by
  refine ⟨fun n i h => mem_parseSelection h, fun dirs => ⟨?_, ?_, ?_⟩⟩
  · intro i hi
    exact lookupDir_isSome (mem_parseSelection hi).1 (mem_parseSelection hi).2
  · exact previewLoop_isSome dirs _ (fun i hi => mem_parseSelection hi)
  · intro σ removeAll fs
    exact deleteLoop_isSome removeAll dirs _ (fun i hi => mem_parseSelection hi) fs

/-! ## C1: two affirmative answers before any deletion -/

/-- C1: for every ranked list, every three console lines and every file
system, lines 81-141 of `main` run to completion, and the sequence of
deletion attempts is non-empty only if the first and the third line are both
`y` after lower-casing and trimming; unless both are, there is no deletion
attempt and the file system is the one the run started with (in particular
when the first answer is accepted and the second is anything else). -/
theorem deletion_needs_two_confirmations {σ : Type} (tbl : Char → Char)
    (removeAll : String → σ → σ × Bool) (dirs : List DirInfo)
    (response numStr confirm : List Char) (fs : σ) :
    ∃ out, mainPrompts tbl removeAll dirs response numStr confirm fs = some out ∧
      (out.2 ≠ [] →
        normalize tbl response = "y".toList ∧ normalize tbl confirm = "y".toList) ∧
      (¬ (normalize tbl response = "y".toList ∧ normalize tbl confirm = "y".toList) →
        out = (fs, [])) ∧
      (normalize tbl response = "y".toList → normalize tbl confirm ≠ "y".toList →
        out.2 = [] ∧ out.1 = fs) := by
  unfold mainPrompts
  by_cases hd : dirs.length > 0
  · by_cases hr : normalize tbl response = "y".toList
    · by_cases ht : (parseSelection (normalize tbl numStr) dirs.length).length > 0
      · obtain ⟨pv, hpv⟩ := previewLoop_isSome dirs
          (parseSelection (normalize tbl numStr) dirs.length)
          (fun i hi => mem_parseSelection hi)
        by_cases hc : normalize tbl confirm = "y".toList
        · obtain ⟨out, ho⟩ := deleteLoop_isSome removeAll dirs
            (parseSelection (normalize tbl numStr) dirs.length)
            (fun i hi => mem_parseSelection hi) fs
          refine ⟨out, ?_, ?_, ?_, ?_⟩
          · simp only [hd, hr, ht, hpv, hc, if_true, ho]
          · exact fun _ => ⟨hr, hc⟩
          · exact fun h => absurd ⟨hr, hc⟩ h
          · exact fun _ h => absurd hc h
        · refine ⟨(fs, []), ?_, ?_, ?_, ?_⟩
          · simp only [hd, hr, ht, hpv, hc, if_true, if_false]
          · exact fun h => absurd rfl h
          · exact fun _ => rfl
          · exact fun _ _ => ⟨rfl, rfl⟩
      · refine ⟨(fs, []), ?_, ?_, ?_, ?_⟩
        · simp only [hd, hr, ht, if_true, if_false]
        · exact fun h => absurd rfl h
        · exact fun _ => rfl
        · exact fun _ _ => ⟨rfl, rfl⟩
    · refine ⟨(fs, []), ?_, ?_, ?_, ?_⟩
      · simp only [hd, hr, if_true, if_false]
      · exact fun h => absurd rfl h
      · exact fun _ => rfl
      · exact fun _ _ => ⟨rfl, rfl⟩
  · refine ⟨(fs, []), ?_, ?_, ?_, ?_⟩
    · simp only [hd, if_false]
    · exact fun h => absurd rfl h
    · exact fun _ => rfl
    · exact fun _ _ => ⟨rfl, rfl⟩

/-! ## Decimal numerals are read back by `Atoi` -/

theorem digitChar_spec (d : Nat) (h : d < 10) :
    isDecDigit (Nat.digitChar d) = true ∧ (Nat.digitChar d).toNat - 48 = d := by
  interval_cases d <;> decide

theorem toDigitsCore_append (fuel n : Nat) (ds : List Char) :
    Nat.toDigitsCore 10 fuel n ds = Nat.toDigitsCore 10 fuel n [] ++ ds := by
  induction fuel generalizing n ds with
  | zero => simp [Nat.toDigitsCore]
  | succ fuel ih =>
    simp only [Nat.toDigitsCore]
    split
    · simp
    · rw [ih (n / 10) (Nat.digitChar (n % 10) :: ds), ih (n / 10) [Nat.digitChar (n % 10)]]
      simp

theorem decValue_append (acc : Nat) (xs : List Char) (c : Char) :
    decValue acc (xs ++ [c]) = decValue acc xs * 10 + (c.toNat - 48) := by
  simp [decValue, digitStep]

theorem toDigitsCore_spec (fuel n : Nat) (h : n < fuel) :
    (∀ c ∈ Nat.toDigitsCore 10 fuel n [], isDecDigit c = true) ∧
    Nat.toDigitsCore 10 fuel n [] ≠ [] ∧
    decValue 0 (Nat.toDigitsCore 10 fuel n []) = n := by
  induction fuel generalizing n with
  | zero => omega
  | succ fuel ih =>
    have hd := digitChar_spec (n % 10) (Nat.mod_lt _ (by decide))
    simp only [Nat.toDigitsCore]
    split
    · rename_i h0
      refine ⟨by simpa using hd.1, by simp, ?_⟩
      simp only [decValue, List.foldl, digitStep, hd.2]
      omega
    · rename_i h0
      have hlt : n / 10 < fuel := by omega
      obtain ⟨h1, h2, h3⟩ := ih (n / 10) hlt
      rw [toDigitsCore_append]
      refine ⟨?_, by simp, ?_⟩
      · intro c hc
        rcases List.mem_append.1 hc with hc | hc
        · exact h1 c hc
        · simp only [List.mem_singleton] at hc
          rw [hc]; exact hd.1
      · rw [decValue_append, h3, hd.2]
        omega

theorem decimal_spec (k : Nat) :
    (∀ c ∈ decimal k, isDecDigit c = true) ∧ decimal k ≠ [] ∧ decValue 0 (decimal k) = k :=
  toDigitsCore_spec (k + 1) k (Nat.lt_succ_self k)

theorem le_decValue (acc : Nat) (ds : List Char) : acc ≤ decValue acc ds := by
  induction ds generalizing acc with
  | nil => simp [decValue]
  | cons c cs ih =>
    have := ih (digitStep acc c)
    simp only [decValue, List.foldl] at this ⊢
    simp only [digitStep] at this ⊢
    omega

theorem parseUintLoop_ok (ds : List Char) (acc : Nat)
    (hd : ∀ c ∈ ds, isDecDigit c = true) (hv : decValue acc ds < 2 ^ 64) :
    parseUintLoop ds acc = .ok (decValue acc ds) := by
  induction ds generalizing acc with
  | nil => simp [parseUintLoop, decValue]
  | cons c cs ih =>
    have hc : isDecDigit c = true := hd c (by simp)
    have hv1 : decValue (digitStep acc c) cs < 2 ^ 64 := by simpa [decValue] using hv
    have hle := le_decValue (digitStep acc c) cs
    have hlt : ¬ (acc * 10 + (c.toNat - 48) ≥ 2 ^ 64) := by
      simp only [digitStep] at hle hv1
      omega
    simp only [parseUintLoop, hc, if_true, hlt, if_false]
    have := ih (digitStep acc c) (fun x hx => hd x (by simp [hx])) hv1
    simpa [decValue, digitStep] using this

theorem parseUintLoop_overflow (ds : List Char) (acc : Nat)
    (hd : ∀ c ∈ ds, isDecDigit c = true) (ha : acc < 2 ^ 64) (hv : 2 ^ 64 ≤ decValue acc ds) :
    parseUintLoop ds acc = .error true := by
  induction ds generalizing acc with
  | nil => simp only [decValue, List.foldl] at hv; omega
  | cons c cs ih =>
    have hc : isDecDigit c = true := hd c (by simp)
    simp only [parseUintLoop, hc, if_true]
    split
    · rfl
    · rename_i hlt
      exact ih _ (fun x hx => hd x (by simp [hx])) (by omega) (by simpa [decValue, digitStep] using hv)

theorem Atoi_digits (s : List Char) (hd : ∀ c ∈ s, isDecDigit c = true) :
    Atoi s = parseIntBody false s := by
  unfold Atoi
  split
  · exact absurd (hd '-' (by simp)) (by decide)
  · exact absurd (hd '+' (by simp)) (by decide)
  · rfl

theorem Atoi_decimal (k : Nat) (hk : k < 2 ^ 63) : Atoi (decimal k) = ((k : Int), true) := by
  obtain ⟨h1, h2, h3⟩ := decimal_spec k
  rw [Atoi_digits _ h1]
  unfold parseIntBody
  rw [if_neg h2, parseUintLoop_ok _ _ h1 (by rw [h3]; omega), h3]
  have : ¬ ((9223372036854775808 : Nat) ≤ k) := by omega
  simp [this]

theorem Atoi_decimal_big (k : Nat) (hk : 2 ^ 63 ≤ k) : (Atoi (decimal k)).2 = false := by
  obtain ⟨h1, h2, h3⟩ := decimal_spec k
  rw [Atoi_digits _ h1]
  unfold parseIntBody
  rw [if_neg h2]
  by_cases hb : k < 2 ^ 64
  · rw [parseUintLoop_ok _ _ h1 (by rw [h3]; exact hb), h3]
    have : (9223372036854775808 : Nat) ≤ k := by omega
    simp [this]
  · rw [parseUintLoop_overflow _ _ h1 (by decide) (by rw [h3]; omega)]

/-! ## Tokens made of digits and dashes pass through the normalisation -/

theorem dropWhile_eq_self {p : Char → Bool} (l : List Char) (h : ∀ c ∈ l, p c = false) :
    l.dropWhile p = l := by
  cases l with
  | nil => rfl
  | cons c cs => simp [List.dropWhile, h c (by simp)]

theorem TrimSpace_eq_self (s : List Char) (h : ∀ c ∈ s, isSpace c = false) :
    TrimSpace s = s := by
  unfold TrimSpace
  rw [dropWhile_eq_self s h, dropWhile_eq_self s.reverse (fun c hc => h c (List.mem_reverse.1 hc))]
  simp

theorem isTokenChar_cases {c : Char} (h : isTokenChar c = true) :
    (48 ≤ c.toNat ∧ c.toNat ≤ 57) ∨ c = '-' := by
  simpa [isTokenChar, isDecDigit] using h

theorem isSpace_of_isTokenChar {c : Char} (h : isTokenChar c = true) : isSpace c = false := by
  rcases isTokenChar_cases h with h | rfl
  · exact isSpace_of_isDecDigit (by simpa [isDecDigit] using h)
  · decide

theorem lowerRune_of_isTokenChar (tbl : Char → Char) {c : Char} (h : isTokenChar c = true) :
    lowerRune tbl c = c := by
  rcases isTokenChar_cases h with h | rfl
  · have h1 : c.toNat < 128 := by omega
    have h2 : ¬ (65 ≤ c.toNat ∧ c.toNat ≤ 90) := by omega
    simp [lowerRune, h1, h2]
  · rfl

theorem normalize_token (tbl : Char → Char) (s : List Char)
    (h : ∀ c ∈ s, isTokenChar c = true) : normalize tbl s = s := by
  have hl : ToLower tbl s = s := by
    unfold ToLower
    conv_rhs => rw [← List.map_id s]
    exact List.map_congr_left (fun c hc => lowerRune_of_isTokenChar tbl (h c hc))
  unfold normalize
  rw [hl]
  exact TrimSpace_eq_self s (fun c hc => isSpace_of_isTokenChar (h c hc))

theorem Split_ne_nil (sep : Char) (s : List Char) : Split sep s ≠ [] := by
  cases s with
  | nil => simp [Split]
  | cons c cs =>
    simp only [Split]
    split
    · simp
    · split <;> simp

theorem Split_of_not_mem (sep : Char) (s : List Char) (h : sep ∉ s) : Split sep s = [s] := by
  induction s with
  | nil => rfl
  | cons c cs ih =>
    have hc : c ≠ sep := fun e => h (by simp [e])
    have hcs : sep ∉ cs := fun e => h (by simp [e])
    simp [Split, hc, ih hcs]

theorem Split_append_sep (sep : Char) (a b : List Char) (h : sep ∉ a) :
    Split sep (a ++ sep :: b) = a :: Split sep b := by
  induction a with
  | nil => simp [Split]
  | cons c cs ih =>
    have hc : c ≠ sep := fun e => h (by simp [e])
    have hcs : sep ∉ cs := fun e => h (by simp [e])
    simp [Split, hc, ih hcs]

theorem Contains_iff (sep : Char) (s : List Char) : Contains sep s = true ↔ sep ∈ s := by
  simp [Contains]

theorem not_mem_of_digits {s : List Char} (hd : ∀ c ∈ s, isDecDigit c = true) {x : Char}
    (hx : isDecDigit x = false) : x ∉ s := by
  intro hm
  rw [hd x hm] at hx
  exact Bool.noConfusion hx

/-! ## The loop of the range branch -/

theorem rangeLoop_sorted (n : Nat) (stop : Int) (fuel : Nat) (i : Int)
    (hi : minInt64 ≤ i) (hstop : stop ≤ maxInt64) :
    (rangeLoop n stop fuel i).Sorted (· < ·) ∧
    ∀ j ∈ rangeLoop n stop fuel i, i ≤ j ∧ j < stop := by
  induction fuel generalizing i with
  | zero => simp [rangeLoop]
  | succ fuel ih =>
    simp only [rangeLoop]
    split
    · have hw : wrap64 (i + 1) = i + 1 := wrap64_eq (by omega) (by omega)
      rw [hw]
      obtain ⟨hs, hb⟩ := ih (i + 1) (by omega)
      split
      · refine ⟨List.sorted_cons.2 ⟨fun j hj => by have := hb j hj; omega, hs⟩, ?_⟩
        intro j hj
        rcases List.mem_cons.1 hj with rfl | hj
        · omega
        · have := hb j hj; omega
      · exact ⟨hs, fun j hj => by have := hb j hj; omega⟩
    · simp

theorem rangeLoop_complete (n : Nat) (stop : Int) (fuel : Nat) (i j : Int)
    (hi : minInt64 ≤ i) (hstop : stop ≤ maxInt64)
    (hf : (stop - i).toNat ≤ fuel) (h1 : i ≤ j) (h2 : j < stop) (h3 : 0 ≤ j)
    (h4 : j < (n : Int)) : j ∈ rangeLoop n stop fuel i := by
  induction fuel generalizing i with
  | zero => omega
  | succ fuel ih =>
    have hlt : i < stop := by omega
    have hw : wrap64 (i + 1) = i + 1 := wrap64_eq (by omega) (by omega)
    simp only [rangeLoop, hlt, if_true, hw]
    by_cases hij : i = j
    · subst hij
      simp [h3, h4]
    · have := ih (i + 1) (by omega) (by omega) (by omega)
      split
      · exact List.mem_cons_of_mem _ this
      · exact this

/-- Enough fuel: the loop gives the same list for every fuel from the trip
count `stop - i` on. -/
theorem rangeLoop_fuel (n : Nat) (stop : Int) (fuel : Nat) (i : Int)
    (hi : minInt64 ≤ i) (hstop : stop ≤ maxInt64)
    (hf : (stop - i).toNat ≤ fuel) :
    rangeLoop n stop fuel i = rangeLoop n stop (stop - i).toNat i := by
  induction fuel generalizing i with
  | zero =>
    have : (stop - i).toNat = 0 := by omega
    rw [this]
  | succ fuel ih =>
    by_cases hlt : i < stop
    · obtain ⟨m, hm⟩ : ∃ m, (stop - i).toNat = m + 1 := ⟨(stop - i).toNat - 1, by omega⟩
      have hm1 : (stop - (i + 1)).toNat = m := by omega
      have hw : wrap64 (i + 1) = i + 1 := wrap64_eq (by omega) (by omega)
      rw [hm]
      simp only [rangeLoop, hlt, if_true, hw]
      rw [ih (i + 1) (by omega) (by omega), hm1]
    · have : (stop - i).toNat = 0 := by omega
      rw [this]
      simp [rangeLoop, hlt]

theorem isTokenChar_of_digit {c : Char} (h : isDecDigit c = true) : isTokenChar c = true := by
  simp [isTokenChar, h]

theorem parseSelection_single (numStr : List Char) (n : Nat)
    (hall : numStr ≠ "all".toList) (hcomma : ',' ∉ numStr) :
    parseSelection numStr n = tokenIndices n numStr := by
  unfold parseSelection
  rw [if_neg hall, Split_of_not_mem _ _ hcomma]
  simp

theorem ne_all_of_tokenChars {s : List Char} (h : ∀ c ∈ s, isTokenChar c = true) :
    s ≠ "all".toList := by
  intro e
  have := h 'a' (by rw [e]; decide)
  exact absurd this (by decide)

theorem comma_not_mem_of_tokenChars {s : List Char} (h : ∀ c ∈ s, isTokenChar c = true) :
    ',' ∉ s := by
  intro hm
  exact absurd (h ',' hm) (by decide)

/-! ## C3: a single ordinal -/

/-- C3: for every list length `n` (a Go slice length, so below `2^63`) and
every natural number `k`, the selection parser applied to the line that
consists of the decimal numeral of `k` yields exactly `[k-1]` when
`1 <= k <= n` and the empty sequence otherwise. -/
theorem single_ordinal_selection (tbl : Char → Char) (n k : Nat) (hn : n < 2 ^ 63) :
    parseSelectionLine tbl (decimal k) n =
      if 1 ≤ k ∧ k ≤ n then [(k : Int) - 1] else [] := by
  obtain ⟨h1, h2, h3⟩ := decimal_spec k
  have htc : ∀ c ∈ decimal k, isTokenChar c = true := fun c hc => isTokenChar_of_digit (h1 c hc)
  unfold parseSelectionLine
  rw [normalize_token tbl _ htc,
    parseSelection_single _ _ (ne_all_of_tokenChars htc) (comma_not_mem_of_tokenChars htc)]
  have hdash : Contains '-' (decimal k) = false := by
    rw [Bool.eq_false_iff, Ne, Contains_iff]
    exact not_mem_of_digits h1 (by decide)
  have htrim : TrimSpace (decimal k) = decimal k :=
    TrimSpace_eq_self _ (fun c hc => isSpace_of_isDecDigit (h1 c hc))
  unfold tokenIndices
  simp only [hdash, Bool.false_eq_true, if_false, htrim]
  by_cases hk : k < 2 ^ 63
  · rw [Atoi_decimal k hk]
    by_cases hc : 1 ≤ k ∧ k ≤ n
    · have hw : wrap64 ((k : Int) - 1) = (k : Int) - 1 :=
        wrap64_eq (by simp only [minInt64]; omega) (by simp only [maxInt64]; omega)
      have : (k : Int) > 0 ∧ (k : Int) ≤ (n : Int) := by omega
      simp [hc, this, hw]
    · have : ¬ ((k : Int) > 0 ∧ (k : Int) ≤ (n : Int)) := by omega
      simp only [true_and, this, if_false]
      rw [if_neg hc]
  · have hbig := Atoi_decimal_big k (by omega)
    have hc : ¬ (1 ≤ k ∧ k ≤ n) := by omega
    rw [if_neg hc]
    simp [hbig]

/-- C3, an instance: with six entries the ordinal 3 selects index 2. -/
theorem single_ordinal_selection_witness :
    (6 : Nat) < 2 ^ 63 ∧
    parseSelectionLine id (decimal 3) 6 = if 1 ≤ 3 ∧ 3 ≤ 6 then [((3 : Nat) : Int) - 1] else [] :=
  ⟨by decide, single_ordinal_selection id 6 3 (by decide)⟩

/-! ## C4: a range -/

/-- C4: for every list length `n` and all natural numbers `a`, `b` below
`2^63`, the selection parser applied to the line `a-b` (two decimal numerals
joined by a dash) yields a strictly ascending list whose members are exactly
the integers `i` with `a-1 <= i <= b-1` and `0 <= i <= n-1`; it is empty when
`a > b`. -/
theorem range_selection (tbl : Char → Char) (n a b : Nat) (ha : a < 2 ^ 63) (hb : b < 2 ^ 63) :
    (parseSelectionLine tbl (decimal a ++ '-' :: decimal b) n).Sorted (· < ·) ∧
    (∀ i : Int, i ∈ parseSelectionLine tbl (decimal a ++ '-' :: decimal b) n ↔
      ((a : Int) - 1 ≤ i ∧ i ≤ (b : Int) - 1 ∧ 0 ≤ i ∧ i ≤ (n : Int) - 1)) ∧
    (a > b → parseSelectionLine tbl (decimal a ++ '-' :: decimal b) n = []) := by
  obtain ⟨ha1, _, _⟩ := decimal_spec a
  obtain ⟨hb1, _, _⟩ := decimal_spec b
  have htc : ∀ c ∈ decimal a ++ '-' :: decimal b, isTokenChar c = true := by
    intro c hc
    rcases List.mem_append.1 hc with hc | hc
    · exact isTokenChar_of_digit (ha1 c hc)
    · rcases List.mem_cons.1 hc with rfl | hc
      · decide
      · exact isTokenChar_of_digit (hb1 c hc)
  have hdash : Contains '-' (decimal a ++ '-' :: decimal b) = true := by
    rw [Contains_iff]; simp
  have hsplit : Split '-' (decimal a ++ '-' :: decimal b) = [decimal a, decimal b] := by
    rw [Split_append_sep _ _ _ (not_mem_of_digits ha1 (by decide)),
      Split_of_not_mem _ _ (not_mem_of_digits hb1 (by decide))]
  have hw : wrap64 ((a : Int) - 1) = (a : Int) - 1 :=
    wrap64_eq (by simp only [minInt64]; omega) (by simp only [maxInt64]; omega)
  have hout : parseSelectionLine tbl (decimal a ++ '-' :: decimal b) n =
      rangeLoop n (b : Int) ((b : Int) - ((a : Int) - 1)).toNat ((a : Int) - 1) := by
    unfold parseSelectionLine
    rw [normalize_token tbl _ htc,
      parseSelection_single _ _ (ne_all_of_tokenChars htc) (comma_not_mem_of_tokenChars htc)]
    unfold tokenIndices
    simp only [hdash, if_true, hsplit,
      TrimSpace_eq_self _ (fun c hc => isSpace_of_isDecDigit (ha1 c hc)),
      TrimSpace_eq_self _ (fun c hc => isSpace_of_isDecDigit (hb1 c hc)),
      Atoi_decimal a ha, Atoi_decimal b hb, hw]
  rw [hout]
  have hmin : minInt64 ≤ (a : Int) - 1 := by simp only [minInt64]; omega
  have hmax : (b : Int) ≤ maxInt64 := by simp only [maxInt64]; omega
  obtain ⟨hs, hbd⟩ := rangeLoop_sorted n (b : Int) ((b : Int) - ((a : Int) - 1)).toNat
    ((a : Int) - 1) hmin hmax
  refine ⟨hs, ?_, ?_⟩
  · intro i
    constructor
    · intro hi
      have h1 := hbd i hi
      have h2 := mem_rangeLoop hi
      omega
    · rintro ⟨h1, h2, h3, h4⟩
      exact rangeLoop_complete n _ _ _ i hmin hmax (le_refl _) h1 (by omega) h3 (by omega)
  · intro hab
    have : ((b : Int) - ((a : Int) - 1)).toNat = 0 := by omega
    rw [this]
    rfl

/-- C4, an instance: with six entries the line `2-1` selects nothing. -/
theorem range_selection_witness :
    (2 : Nat) < 2 ^ 63 ∧ (1 : Nat) < 2 ^ 63 ∧
    parseSelectionLine id (decimal 2 ++ '-' :: decimal 1) 6 = [] :=
  ⟨by decide, by decide, (range_selection id 6 2 1 (by decide) (by decide)).2.2 (by decide)⟩

/-- A range that overlaps the list only in part keeps its in-range part:
with six entries the line `5-9` selects the indices 4 and 5. -/
theorem range_selection_partial :
    parseSelectionLine id (decimal 5 ++ '-' :: decimal 9) 6 = [4, 5] ∧
    parseSelectionLine id (decimal 0 ++ '-' :: decimal 2) 6 = [0, 1] := by
  decide

/-! ## C2: the scanner records exactly the stale, outermost target directories -/

theorem isTarget_eq_mem (name : String) : isTarget name = decide (name ∈ targetNames) := by
  by_cases h1 : name = "node_modules"
  · simp [isTarget, targetNames, h1]
  · by_cases h2 : name = ".venv"
    · simp [isTarget, targetNames, h2]
    · by_cases h3 : name = ".env"
      · simp [isTarget, targetNames, h3]
      · simp [isTarget, targetNames, h1, h2, h3]

theorem shouldRecord_code (cutoffDate : Int) (e : DirEntry) :
    shouldRecord cutoffDate e =
      (isTarget e.name && decide (e.modTime ≤ cutoffDate) &&
        e.ancestors.all (fun a => !isTarget a)) := by
  have hf : (fun a : String => decide (a ∉ targetNames)) = (fun a => !isTarget a) := by
    funext a
    rw [isTarget_eq_mem]
    simp
  unfold shouldRecord
  rw [isTarget_eq_mem, hf]

mutual
theorem allDirs_filter_pruned (join : String → String → String) (cutoffDate : Int) :
    ∀ (node : FsNode) (path : String) (anc : List String),
      anc.all (fun a => !isTarget a) = false →
      (allDirs join path anc node).filter (shouldRecord cutoffDate) = []
  | .file _ _, _, _, _ => by simp [allDirs]
  | .dir name mt children, path, anc, h => by
    have hc : (name :: anc).all (fun a => !isTarget a) = false := by
      simp only [List.all_cons, h, Bool.and_false]
    simp only [allDirs, List.filter_cons, shouldRecord_code, h, Bool.and_false, Bool.false_eq_true,
      if_false]
    exact allDirsList_filter_pruned join cutoffDate children path (name :: anc) hc
theorem allDirsList_filter_pruned (join : String → String → String) (cutoffDate : Int) :
    ∀ (cs : List FsNode) (path : String) (anc : List String),
      anc.all (fun a => !isTarget a) = false →
      (allDirsList join path anc cs).filter (shouldRecord cutoffDate) = []
  | [], _, _, _ => by simp [allDirsList]
  | c :: cs, path, anc, h => by
    simp only [allDirsList, List.filter_append,
      allDirs_filter_pruned join cutoffDate c (join path c.name) anc h,
      allDirsList_filter_pruned join cutoffDate cs path anc h, List.append_nil]
end

mutual
theorem walk_findOldDirsFn (join : String → String → String) (cutoffDate : Int) :
    ∀ (node : FsNode) (path : String) (anc : List String) (dirs : List DirInfo),
      anc.all (fun a => !isTarget a) = true →
      (walk join (findOldDirsFn cutoffDate) path node dirs).1 =
          dirs ++ ((allDirs join path anc node).filter (shouldRecord cutoffDate)).map
            DirEntry.toRecord ∧
        ((walk join (findOldDirsFn cutoffDate) path node dirs).2 = true → node.isDir = true)
  | .file name mt, path, anc, dirs, _ => by
    simp [walk, findOldDirsFn, allDirs]
  | .dir name mt children, path, anc, dirs, h => by
    refine ⟨?_, fun _ => rfl⟩
    by_cases ht : isTarget name = true
    · have hc : (name :: anc).all (fun a => !isTarget a) = false := by
        simp [List.all_cons, ht]
      have hp := allDirsList_filter_pruned join cutoffDate children path (name :: anc) hc
      by_cases hm : mt > cutoffDate
      · have hm2 : ¬ (mt ≤ cutoffDate) := by omega
        simp [walk, findOldDirsFn, ht, hm, allDirs, List.filter_cons, shouldRecord_code, hm2, hp]
      · have hm2 : mt ≤ cutoffDate := by omega
        have h2 : ∀ x ∈ anc, isTarget x = false := by
          intro x hx
          have := List.all_eq_true.1 h x hx
          simpa using this
        simp only [walk, findOldDirsFn, ht, hm, allDirs, List.filter_cons, shouldRecord_code, hm2, hp,
          Bool.and_self, if_true, if_false, decide_True, h, Bool.and_true, List.map_cons,
          List.map_nil, DirEntry.toRecord]
    · have hc : (name :: anc).all (fun a => !isTarget a) = true := by
        simp [List.all_cons, ht, h]
      have ih := walkEntries_findOldDirsFn join cutoffDate children path (name :: anc) dirs hc
      simp [walk, findOldDirsFn, ht, allDirs, List.filter_cons, shouldRecord_code, ih]
theorem walkEntries_findOldDirsFn (join : String → String → String) (cutoffDate : Int) :
    ∀ (cs : List FsNode) (path : String) (anc : List String) (dirs : List DirInfo),
      anc.all (fun a => !isTarget a) = true →
      walkEntries join (findOldDirsFn cutoffDate) path cs dirs =
        (dirs ++ ((allDirsList join path anc cs).filter (shouldRecord cutoffDate)).map
          DirEntry.toRecord, false)
  | [], _, _, _, _ => by simp [walkEntries, allDirsList]
  | c :: cs, path, anc, dirs, h => by
    obtain ⟨h1, h2⟩ := walk_findOldDirsFn join cutoffDate c (join path c.name) anc dirs h
    have hskip : ((walk join (findOldDirsFn cutoffDate) (join path c.name) c dirs).2 &&
        !c.isDir) = false := by
      cases hb : (walk join (findOldDirsFn cutoffDate) (join path c.name) c dirs).2
      · rfl
      · simp [h2 hb]
    simp only [walkEntries, hskip, Bool.false_eq_true, if_false, h1]
    rw [walkEntries_findOldDirsFn join cutoffDate cs path anc _ h]
    simp [allDirsList, List.filter_append, List.map_append]
end

/-- C2: for every directory tree (walked without node errors), every cutoff
and every root path, `findOldDirs` returns, in traversal order, exactly one
record for each directory of the tree that is named `node_modules`, `.venv`
or `.env`, was modified at or before the cutoff and has no proper ancestor
inside the walk with one of these three names, and no other record: the
number of records is the number of such directories; every record is the
record of such a directory (so a directory of another name, one modified
after the cutoff, or one beneath a directory with one of the three names is
not recorded); and every such directory has its record in the result. -/
theorem findOldDirs_eq_expected (join : String → String → String) (cutoffDate : Int)
    (startPath : String) (root : FsNode) :
    findOldDirs join cutoffDate startPath root =
        expectedRecords join cutoffDate startPath root ∧
      (findOldDirs join cutoffDate startPath root).length =
        (allDirs join startPath [] root).countP (shouldRecord cutoffDate) ∧
      (∀ r ∈ findOldDirs join cutoffDate startPath root,
        ∃ e ∈ allDirs join startPath [] root, r = e.toRecord ∧
          (e.name = "node_modules" ∨ e.name = ".venv" ∨ e.name = ".env") ∧
          e.modTime ≤ cutoffDate ∧
          ∀ a ∈ e.ancestors, a ≠ "node_modules" ∧ a ≠ ".venv" ∧ a ≠ ".env") ∧
      (∀ e ∈ allDirs join startPath [] root,
        (e.name = "node_modules" ∨ e.name = ".venv" ∨ e.name = ".env") →
        e.modTime ≤ cutoffDate →
        (∀ a ∈ e.ancestors, a ≠ "node_modules" ∧ a ≠ ".venv" ∧ a ≠ ".env") →
        e.toRecord ∈ findOldDirs join cutoffDate startPath root) := by
  have h := (walk_findOldDirsFn join cutoffDate root startPath [] [] (by simp)).1
  have he : findOldDirs join cutoffDate startPath root =
      expectedRecords join cutoffDate startPath root := by
    simpa [findOldDirs, expectedRecords] using h
  have hiff : ∀ e : DirEntry, shouldRecord cutoffDate e = true ↔
      ((e.name = "node_modules" ∨ e.name = ".venv" ∨ e.name = ".env") ∧
        e.modTime ≤ cutoffDate ∧
        ∀ a ∈ e.ancestors, a ≠ "node_modules" ∧ a ≠ ".venv" ∧ a ≠ ".env") := by
    intro e
    simp only [shouldRecord, targetNames, Bool.and_eq_true, decide_eq_true_eq,
      List.all_eq_true, List.mem_cons, List.mem_singleton, List.not_mem_nil, or_false,
      not_or, and_assoc]
  refine ⟨he, ?_, ?_, ?_⟩
  · rw [he, expectedRecords, List.length_map, List.countP_eq_length_filter]
  · intro r hr
    rw [he, expectedRecords, List.mem_map] at hr
    obtain ⟨e, hef, rfl⟩ := hr
    obtain ⟨hmem, hrec⟩ := List.mem_filter.1 hef
    obtain ⟨h1, h2, h3⟩ := (hiff e).1 hrec
    exact ⟨e, hmem, rfl, h1, h2, h3⟩
  · intro e hmem h1 h2 h3
    rw [he, expectedRecords, List.mem_map]
    exact ⟨e, List.mem_filter.2 ⟨hmem, (hiff e).2 ⟨h1, h2, h3⟩⟩, rfl⟩

/-! ## C6: the literal `all` -/

/-- C6, as stated, fails: in the line `1,all` the second comma-separated token
is the literal `all`, yet with six entries the parser yields only index 0. -/
theorem all_token_counterexample :
    "all".toList ∈ Split ',' "1,all".toList ∧
    parseSelectionLine id "1,all".toList 6 = [0] ∧
    parseSelectionLine id "1,all".toList 6 ≠ (List.range 6).map Int.ofNat := by
  decide

/-- C6, amended: for every list length `n` and every line that is the literal
`all` once lower-cased and trimmed, the selection parser yields exactly the
indices `0, 1, ..., n-1` in ascending order, each once. -/
theorem all_selection (tbl : Char → Char) (line : List Char) (n : Nat)
    (h : normalize tbl line = "all".toList) :
    parseSelectionLine tbl line n = (List.range n).map Int.ofNat := by
  simp [parseSelectionLine, parseSelection, h]

/-- C6, amended, an instance: the line ` ALL` with six entries. -/
theorem all_selection_witness :
    normalize id " ALL\n".toList = "all".toList ∧
    parseSelectionLine id " ALL\n".toList 6 = [0, 1, 2, 3, 4, 5] :=
  ⟨by decide, all_selection id " ALL\n".toList 6 (by decide)⟩

/-! ## C5: malformed tokens -/

/-- C5, the code at the failing inputs: a range token whose first endpoint is
not a number (`x-3`) or is missing (`-3`, `-1`) is not dropped; the first
endpoint is read as 0 and the token selects the indices from 0 up to the
second endpoint.  The same words without a dash (`x`, the empty token) are
dropped by the single-ordinal branch. -/
theorem malformed_range_selects :
    parseSelectionLine id "x-3".toList 6 = [0, 1, 2] ∧
    parseSelectionLine id "-3".toList 6 = [0, 1, 2] ∧
    parseSelectionLine id "-1".toList 6 = [0] ∧
    parseSelectionLine id "5,x-3".toList 6 = [4, 0, 1, 2] ∧
    parseSelectionLine id "5,x,,3".toList 6 = [4, 2] := by
  decide

/-! ## C7: `convertToBytes` -/

theorem truncInt64_of_range (ovf : ℚ → Int) (x : ℚ) (h0 : 0 ≤ x) (h1 : x < 2 ^ 63) :
    truncInt64 ovf x = ⌊x⌋ := by
  have hlo : (0 : Int) ≤ ⌊x⌋ := Int.floor_nonneg.2 h0
  have hhi : ⌊x⌋ < 2 ^ 63 := by
    rw [Int.floor_lt]
    exact_mod_cast h1
  have hc : minInt64 ≤ ⌊x⌋ ∧ ⌊x⌋ ≤ maxInt64 := by
    simp only [minInt64, maxInt64]
    constructor <;> omega
  simp only [truncInt64, truncate, h0, if_true, hc, and_self]

/-- C7, the code at the failing input: for the unit `B` the suffix `B` is
stripped first, the empty unit is not a key of the multiplier map, and the
result is 0 for every magnitude (not the magnitude itself). -/
theorem convertToBytes_unit_B (ovf : ℚ → Int) (tbl : Char → Char) (size : ℚ) :
    convertToBytes ovf tbl size "B".toList = 0 ∧
    convertToBytes ovf tbl 1 "B".toList ≠ truncInt64 ovf (1 * 1) := by
  have h : multiplier.lookup (TrimSuffix (ToUpper tbl "B".toList) "B".toList) = none := rfl
  refine ⟨by simp only [convertToBytes, h], ?_⟩
  rw [truncInt64_of_range ovf (1 * 1) (by norm_num) (by norm_num)]
  simp only [convertToBytes, h]
  norm_num

/-- For the units `K`, `M`, `G`, `T` the conversion is the magnitude times the
power of 1024, converted to `int64`. -/
theorem convertToBytes_KMGT (ovf : ℚ → Int) (tbl : Char → Char) (size : ℚ) :
    convertToBytes ovf tbl size "K".toList = truncInt64 ovf (size * 2 ^ 10) ∧
    convertToBytes ovf tbl size "M".toList = truncInt64 ovf (size * 2 ^ 20) ∧
    convertToBytes ovf tbl size "G".toList = truncInt64 ovf (size * 2 ^ 30) ∧
    convertToBytes ovf tbl size "T".toList = truncInt64 ovf (size * 2 ^ 40) := by
  have hK : multiplier.lookup (TrimSuffix (ToUpper tbl "K".toList) "B".toList) = some 1024 := rfl
  have hM : multiplier.lookup (TrimSuffix (ToUpper tbl "M".toList) "B".toList)
      = some (1024 * 1024) := rfl
  have hG : multiplier.lookup (TrimSuffix (ToUpper tbl "G".toList) "B".toList)
      = some (1024 * 1024 * 1024) := rfl
  have hT : multiplier.lookup (TrimSuffix (ToUpper tbl "T".toList) "B".toList)
      = some (1024 * 1024 * 1024 * 1024) := rfl
  refine ⟨?_, ?_, ?_, ?_⟩
  · simp only [convertToBytes, hK]; norm_num
  · simp only [convertToBytes, hM]; norm_num
  · simp only [convertToBytes, hG]; norm_num
  · simp only [convertToBytes, hT]; norm_num

/-- The worked values: 2.5 G is 2684354560 bytes, 100 K is 102400, 4 K is
4096, and an unknown unit gives 0. -/
theorem convertToBytes_examples (ovf : ℚ → Int) (tbl : Char → Char) :
    convertToBytes ovf tbl (5 / 2) "G".toList = 2684354560 ∧
    convertToBytes ovf tbl 100 "K".toList = 102400 ∧
    convertToBytes ovf tbl 4 "K".toList = 4096 ∧
    convertToBytes ovf tbl 1 "XB".toList = 0 := by
  have hX : multiplier.lookup (TrimSuffix (ToUpper tbl "XB".toList) "B".toList) = none := rfl
  refine ⟨?_, ?_, ?_, by simp only [convertToBytes, hX]⟩
  · rw [(convertToBytes_KMGT ovf tbl (5 / 2)).2.2.1,
      truncInt64_of_range ovf _ (by norm_num) (by norm_num)]
    norm_num
  · rw [(convertToBytes_KMGT ovf tbl 100).1,
      truncInt64_of_range ovf _ (by norm_num) (by norm_num)]
    norm_num
  · rw [(convertToBytes_KMGT ovf tbl 4).1,
      truncInt64_of_range ovf _ (by norm_num) (by norm_num)]
    norm_num

/-- Whatever the platform does outside the range, the conversion yields an
`int64`. -/
theorem truncInt64_range (ovf : ℚ → Int) (x : ℚ) :
    minInt64 ≤ truncInt64 ovf x ∧ truncInt64 ovf x ≤ maxInt64 := by
  unfold truncInt64
  split
  · rename_i h
    exact h
  · simp only [wrap64, minInt64, maxInt64]
    constructor <;> omega

/-! ## C9: ranking -/

theorem lessBytes_ok : LessOK lessBytes := by
  refine ⟨?_, ?_, ?_⟩
  · intro a
    simp [lessBytes]
  · intro a b c h1 h2
    simp only [lessBytes, gt_iff_lt, decide_eq_true_eq] at *
    omega
  · intro a b c h1 h2
    simp only [lessBytes, gt_iff_lt, decide_eq_false_iff_not, not_lt] at *
    omega

theorem insertionSortSlice_isSortSlice : IsSortSlice insertionSortSlice := by
  intro less hl xs
  obtain ⟨hirr, htr, hneg⟩ := hl
  haveI : IsTotal DirInfo (fun a b => less b a = false) := ⟨by
    intro a b
    cases hba : less b a
    · exact Or.inl rfl
    · right
      cases hab : less a b
      · rfl
      · have := htr a b a hab hba
        rw [hirr a] at this
        exact Bool.noConfusion this⟩
  haveI : IsTrans DirInfo (fun a b => less b a = false) := ⟨by
    intro a b c h1 h2
    exact hneg c b a h2 h1⟩
  exact ⟨List.perm_insertionSort _ xs, List.sorted_insertionSort _ xs⟩

/-- C9: for every sort function that meets the contract of `sort.Slice` and
every list of records, the ranking step yields a permutation of its input in
which every record has at least as many `Bytes` as each record after it (in
particular as the next one); a record of fewer bytes followed by a record of
more bytes comes out with the larger one first. -/
theorem rank_sorted_desc
    (sortSlice : (DirInfo → DirInfo → Bool) → List DirInfo → List DirInfo)
    (hsort : IsSortSlice sortSlice) (dirs : List DirInfo) :
    (rank sortSlice dirs).Perm dirs ∧
    (rank sortSlice dirs).Pairwise (fun a b => a.Bytes ≥ b.Bytes) ∧
    (rank sortSlice dirs).Chain' (fun a b => a.Bytes ≥ b.Bytes) ∧
    (∀ a b : DirInfo, a.Bytes < b.Bytes → rank sortSlice [a, b] = [b, a]) := by
  have key : ∀ xs : List DirInfo, (rank sortSlice xs).Perm xs ∧
      (rank sortSlice xs).Pairwise (fun a b => a.Bytes ≥ b.Bytes) := by
    intro xs
    obtain ⟨hp, hs⟩ := hsort lessBytes lessBytes_ok xs
    refine ⟨hp, hs.imp ?_⟩
    intro a b h
    simp only [lessBytes, gt_iff_lt, decide_eq_false_iff_not, not_lt] at h
    exact h
  refine ⟨(key dirs).1, (key dirs).2, List.Pairwise.chain' (key dirs).2, ?_⟩
  intro a b hab
  obtain ⟨hp, hs⟩ := key [a, b]
  have hlen : (rank sortSlice [a, b]).length = 2 := by simpa using hp.length_eq
  match hr : rank sortSlice [a, b], hlen with
  | [x, y], _ =>
    rw [hr] at hp hs
    have hx : x ∈ [a, b] := hp.subset (by simp)
    have hy : y ∈ [a, b] := hp.subset (by simp)
    have ha : a ∈ [x, y] := hp.symm.subset (by simp)
    have hb : b ∈ [x, y] := hp.symm.subset (by simp)
    have hxy : x.Bytes ≥ y.Bytes := by
      simpa using hs
    simp only [List.mem_cons, List.mem_singleton, List.not_mem_nil, or_false] at hx hy ha hb
    rcases hx with rfl | rfl <;> rcases hy with rfl | rfl
    · rcases hb with rfl | rfl <;> omega
    · omega
    · rfl
    · rcases ha with rfl | rfl <;> omega

/-- C9, an instance: the insertion sort meets the contract, and it ranks a
record of 500 MiB and one of 1.2 GiB with the larger first. -/
theorem rank_sorted_desc_witness :
    IsSortSlice insertionSortSlice ∧
    rank insertionSortSlice
        [⟨"/b/node_modules", "500M", 0, 524288000⟩, ⟨"/a/node_modules", "1.2G", 0, 1288490188⟩] =
      [⟨"/a/node_modules", "1.2G", 0, 1288490188⟩, ⟨"/b/node_modules", "500M", 0, 524288000⟩] :=
  ⟨insertionSortSlice_isSortSlice,
   (rank_sorted_desc insertionSortSlice insertionSortSlice_isSortSlice []).2.2.2
     ⟨"/b/node_modules", "500M", 0, 524288000⟩ ⟨"/a/node_modules", "1.2G", 0, 1288490188⟩
     (by decide)⟩

/-! ## C10: `calculateSizes` -/

theorem calculateSizesFrom_get? (ovf : ℚ → Int) (tbl : Char → Char)
    (sscanf : List Char → Option (ℚ × Option (List Char)))
    (du : Nat → String → DuOutcome) (dirs : List DirInfo) (k i : Nat) :
    (calculateSizesFrom ovf tbl sscanf du k dirs).get? i =
      (dirs.get? i).map (fun d => sizeOne ovf tbl sscanf (du (k + i) d.Path) d) := by
  induction dirs generalizing k i with
  | nil => simp [calculateSizesFrom]
  | cons d rest ih =>
    cases i with
    | zero => simp [calculateSizesFrom]
    | succ i =>
      simp only [calculateSizesFrom, List.get?_cons_succ]
      rw [ih (k + 1) i]
      have : k + 1 + i = k + (i + 1) := by omega
      rw [this]

theorem sizeOne_path (ovf : ℚ → Int) (tbl : Char → Char)
    (sscanf : List Char → Option (ℚ × Option (List Char)))
    (out : DuOutcome) (d : DirInfo) :
    (sizeOne ovf tbl sscanf out d).Path = d.Path ∧ (sizeOne ovf tbl sscanf out d).ModTime = d.ModTime := by
  unfold sizeOne
  split
  · exact ⟨rfl, rfl⟩
  · split <;> exact ⟨rfl, rfl⟩

theorem calculateSizesFrom_length (ovf : ℚ → Int) (tbl : Char → Char)
    (sscanf : List Char → Option (ℚ × Option (List Char)))
    (du : Nat → String → DuOutcome) (dirs : List DirInfo) (k : Nat) :
    (calculateSizesFrom ovf tbl sscanf du k dirs).length = dirs.length := by
  induction dirs generalizing k with
  | nil => rfl
  | cons d rest ih => simp [calculateSizesFrom, ih]

theorem calculateSizesFrom_paths (ovf : ℚ → Int) (tbl : Char → Char)
    (sscanf : List Char → Option (ℚ × Option (List Char)))
    (du : Nat → String → DuOutcome) (dirs : List DirInfo) (k : Nat) :
    (calculateSizesFrom ovf tbl sscanf du k dirs).map DirInfo.Path = dirs.map DirInfo.Path := by
  induction dirs generalizing k with
  | nil => rfl
  | cons d rest ih => simp [calculateSizesFrom, ih, (sizeOne_path ovf tbl sscanf _ d).1]

theorem convertToBytes_unscanned (ovf : ℚ → Int) (tbl : Char → Char)
    (sscanf : List Char → Option (ℚ × Option (List Char))) (part0 : List Char)
    (h : sscanf part0 = none) :
    convertToBytes ovf tbl (parseSize sscanf part0).1 (parseSize sscanf part0).2 = 0 := by
  have hl : multiplier.lookup (TrimSuffix (ToUpper tbl []) "B".toList) = none := rfl
  simp only [parseSize, h, convertToBytes, hl]

/-- C10, as stated, fails: when `du` succeeds with white space only as its
output (no field to parse), the record keeps the empty `Size` it was scanned
with; it is not given the `Size` "error". -/
theorem blank_output_counterexample :
    Fields " \n".toList = [] ∧
    (calculateSizes (fun _ => 0) id (fun _ => none)
      (fun _ _ => DuOutcome.output " \n".toList)
      [⟨"/a/node_modules", "", 0, 0⟩]).map DirInfo.Size = [""] ∧
    (calculateSizes (fun _ => 0) id (fun _ => none)
      (fun _ _ => DuOutcome.output " \n".toList)
      [⟨"/a/node_modules", "", 0, 0⟩]).map DirInfo.Size ≠ ["error"] := by
  decide

/-- C10, amended: for every list of scanned records (`Bytes` still 0) and
every outcome of each `du` invocation, `calculateSizes` returns a list of the
same length with the same paths in the same order, and every record is
processed whatever happened to the records before it: a record whose
invocation failed gets the `Size` "error" and `Bytes` 0; a record whose output
has no field (empty or white space only) has `Bytes` 0; a record whose output
has a first field gets that field as its `Size` and the conversion of that
field as its `Bytes`, which is 0 when no magnitude can be read from the
field. -/
theorem calculateSizes_failures (ovf : ℚ → Int) (tbl : Char → Char)
    (sscanf : List Char → Option (ℚ × Option (List Char)))
    (du : Nat → String → DuOutcome) (dirs : List DirInfo)
    (hscan : ∀ d ∈ dirs, d.Bytes = 0) :
    (calculateSizes ovf tbl sscanf du dirs).length = dirs.length ∧
    (calculateSizes ovf tbl sscanf du dirs).map DirInfo.Path = dirs.map DirInfo.Path ∧
    (∀ (i : Nat) (d : DirInfo), dirs.get? i = some d →
      ∃ d1, (calculateSizes ovf tbl sscanf du dirs).get? i = some d1 ∧
        d1.Path = d.Path ∧ d1.ModTime = d.ModTime ∧
        (du i d.Path = DuOutcome.failed → d1.Size = "error" ∧ d1.Bytes = 0) ∧
        (∀ text, du i d.Path = DuOutcome.output text → Fields text = [] → d1.Bytes = 0) ∧
        (∀ text part0 rest, du i d.Path = DuOutcome.output text →
          Fields text = part0 :: rest →
          d1.Size = String.mk part0 ∧
          d1.Bytes =
            convertToBytes ovf tbl (parseSize sscanf part0).1 (parseSize sscanf part0).2 ∧
          (sscanf part0 = none → d1.Bytes = 0))) := by
  refine ⟨calculateSizesFrom_length ovf tbl sscanf du dirs 0,
    calculateSizesFrom_paths ovf tbl sscanf du dirs 0, ?_⟩
  intro i d hd
  have hb : d.Bytes = 0 := hscan d (List.get?_mem hd)
  refine ⟨sizeOne ovf tbl sscanf (du i d.Path) d, ?_, (sizeOne_path ovf tbl sscanf _ d).1,
    (sizeOne_path ovf tbl sscanf _ d).2, ?_, ?_, ?_⟩
  · rw [calculateSizes, calculateSizesFrom_get?, hd]
    simp
  · intro hf
    simp [sizeOne, hf, hb]
  · intro text ho hfield
    simp [sizeOne, ho, hfield, hb]
  · intro text part0 rest ho hfield
    refine ⟨by simp [sizeOne, ho, hfield], by simp [sizeOne, ho, hfield], ?_⟩
    intro hnone
    simp only [sizeOne, ho, hfield]
    exact convertToBytes_unscanned ovf tbl sscanf part0 hnone

/-- C10, amended, an instance: three scanned records; the first measurement
fails, the second prints white space only, the third prints `4.0K` and its
path.  The first record comes out with the `Size` "error" and `Bytes` 0, the
second with `Bytes` 0, and the third, after both, with the `Size` `4.0K` and
`Bytes` 4096. -/
theorem calculateSizes_failures_witness :
    (∀ d ∈ ([⟨"/a", "", 0, 0⟩, ⟨"/b", "", 0, 0⟩, ⟨"/c", "", 0, 0⟩] : List DirInfo), d.Bytes = 0) ∧
    (∃ d1, (calculateSizes (fun _ => 0) id (fun _ => some (4, some "K".toList))
      (fun i _ => if i = 0 then DuOutcome.failed
        else if i = 1 then DuOutcome.output " ".toList
        else DuOutcome.output "4.0K\t/c\n".toList)
      [⟨"/a", "", 0, 0⟩, ⟨"/b", "", 0, 0⟩, ⟨"/c", "", 0, 0⟩]).get? 0 = some d1 ∧
      d1.Size = "error" ∧ d1.Bytes = 0) ∧
    (∃ d1, (calculateSizes (fun _ => 0) id (fun _ => some (4, some "K".toList))
      (fun i _ => if i = 0 then DuOutcome.failed
        else if i = 1 then DuOutcome.output " ".toList
        else DuOutcome.output "4.0K\t/c\n".toList)
      [⟨"/a", "", 0, 0⟩, ⟨"/b", "", 0, 0⟩, ⟨"/c", "", 0, 0⟩]).get? 1 = some d1 ∧
      d1.Bytes = 0) ∧
    (∃ d1, (calculateSizes (fun _ => 0) id (fun _ => some (4, some "K".toList))
      (fun i _ => if i = 0 then DuOutcome.failed
        else if i = 1 then DuOutcome.output " ".toList
        else DuOutcome.output "4.0K\t/c\n".toList)
      [⟨"/a", "", 0, 0⟩, ⟨"/b", "", 0, 0⟩, ⟨"/c", "", 0, 0⟩]).get? 2 = some d1 ∧
      d1.Size = "4.0K" ∧ d1.Bytes = 4096) := by
  have h := calculateSizes_failures (fun _ => 0) id (fun _ => some (4, some "K".toList))
      (fun i _ => if i = 0 then DuOutcome.failed
        else if i = 1 then DuOutcome.output " ".toList
        else DuOutcome.output "4.0K\t/c\n".toList)
      [⟨"/a", "", 0, 0⟩, ⟨"/b", "", 0, 0⟩, ⟨"/c", "", 0, 0⟩] (by decide)
  refine ⟨by decide, ?_, ?_, ?_⟩
  · obtain ⟨d1, h1, _, _, h2, _, _⟩ := h.2.2 0 ⟨"/a", "", 0, 0⟩ rfl
    exact ⟨d1, h1, h2 rfl⟩
  · obtain ⟨d1, h1, _, _, _, h3, _⟩ := h.2.2 1 ⟨"/b", "", 0, 0⟩ rfl
    exact ⟨d1, h1, h3 " ".toList rfl (by decide)⟩
  · obtain ⟨d1, h1, _, _, _, _, h4⟩ := h.2.2 2 ⟨"/c", "", 0, 0⟩ rfl
    obtain ⟨hs, hby, _⟩ := h4 "4.0K\t/c\n".toList "4.0K".toList ["/c".toList] rfl (by decide)
    refine ⟨d1, h1, hs, ?_⟩
    rw [hby]
    exact (convertToBytes_examples (fun _ => 0) id).2.2.1

/-! ## Worked examples -/

/-- The decimal numerals are the usual ones. -/
theorem decimal_examples :
    decimal 0 = "0".toList ∧ decimal 7 = "7".toList ∧ decimal 35 = "35".toList ∧
    decimal 1024 = "1024".toList := by
  decide

/-- The selection examples of the specification, and the order and
duplicates of overlapping tokens. -/
theorem parseSelection_examples :
    parseSelectionLine id "1,3-5\n".toList 6 = [0, 2, 3, 4] ∧
    parseSelectionLine id "all\n".toList 6 = [0, 1, 2, 3, 4, 5] ∧
    parseSelectionLine id "0\n".toList 6 = [] ∧
    parseSelectionLine id "7\n".toList 6 = [] ∧
    parseSelectionLine id "2-1\n".toList 6 = [] ∧
    parseSelectionLine id "1,1-2\n".toList 6 = [0, 0, 1] ∧
    parseSelectionLine id "foo,,1-2-3, 4 \n".toList 6 = [3] := by
  decide

/-- A line other than `all` is parsed token by token: the result is the
concatenation, in token order, of what each comma-separated token yields on
its own. -/
theorem parseSelection_eq_flatten (numStr : List Char) (n : Nat)
    (h : numStr ≠ "all".toList) :
    parseSelection numStr n = ((Split ',' numStr).map (tokenIndices n)).flatten := by
  unfold parseSelection
  rw [if_neg h, foldl_append_tokens]
  simp

/-- The scenario of the specification: with a threshold of 30 days the
scanner records `/r/a/node_modules` and `/r/b/node_modules` only. -/
theorem findOldDirs_example :
    findOldDirs exampleJoin (-30) "/r" exampleTree =
      [⟨"/r/a/node_modules", "", -60, 0⟩, ⟨"/r/b/node_modules", "", -40, 0⟩] := by
  decide

/-- Two runs of the prompts on the scanned example: with `y`, `1-2`, `y` both
directories are removed in the order selected; with `y`, `1-2`, `n` nothing is
attempted and the file system is unchanged. -/
theorem mainPrompts_examples :
    mainPrompts id exampleRemoveAll (findOldDirs exampleJoin (-30) "/r" exampleTree)
        "Y\n".toList "1-2\n".toList "y\n".toList ["/r/a/node_modules", "/r/b/node_modules"] =
      some ([], ["/r/a/node_modules", "/r/b/node_modules"]) ∧
    mainPrompts id exampleRemoveAll (findOldDirs exampleJoin (-30) "/r" exampleTree)
        "Y\n".toList "1-2\n".toList "n\n".toList ["/r/a/node_modules", "/r/b/node_modules"] =
      some (["/r/a/node_modules", "/r/b/node_modules"], []) := by
  decide

end DevDetox
